import Mathlib

set_option maxHeartbeats 1000000

/-!
Shallow embedding of the Simple Parser Interpreter (interpreter.py): the
statement segmenter, the lexer, the parser and the interpreter over a shared
symbol table.  Strings are modelled as lists of characters; console output is
collected as a list of printed lines; the Python exceptions are modelled
explicitly: the caught ValueError of the lexer as an Except value, the
SystemExit raised by exit() and the uncaught TypeError of a None subscript as
distinguished statement outcomes.
-/

namespace SPI

/-- Characters of a string, the basic text representation used throughout. -/
def chars (s : String) : List Char := s.toList

/-- The double-quote character. -/
def qc : Char := Char.ofNat 34

/-- The apostrophe character. -/
def apos : Char := Char.ofNat 39

/-- The backslash character. -/
def bs : Char := Char.ofNat 92

/-- Lexer token kinds, one per entry of the patterns list of the source
(WHITESPACE is recognised but never emitted). -/
inductive TokKind where
  | APPEND | EXIT | LIST | PRINTLENGTH | PRINTWORDS | PRINTWORDCOUNT
  | PRINT | REVERSE | SET | CONSTANT | END | PLUS | ID | LITERAL | WHITESPACE
  deriving DecidableEq

/-- A lexer token: kind and text payload, the token-value tuple of the source. -/
structure Token where
  kind : TokKind
  text : List Char
  deriving DecidableEq

/-- Kind name as text, as the Python token-type strings used in messages. -/
def kindChars : TokKind → List Char
  | .APPEND => chars "APPEND"
  | .EXIT => chars "EXIT"
  | .LIST => chars "LIST"
  | .PRINTLENGTH => chars "PRINTLENGTH"
  | .PRINTWORDS => chars "PRINTWORDS"
  | .PRINTWORDCOUNT => chars "PRINTWORDCOUNT"
  | .PRINT => chars "PRINT"
  | .REVERSE => chars "REVERSE"
  | .SET => chars "SET"
  | .CONSTANT => chars "CONSTANT"
  | .END => chars "END"
  | .PLUS => chars "PLUS"
  | .ID => chars "ID"
  | .LITERAL => chars "LITERAL"
  | .WHITESPACE => chars "WHITESPACE"

/-- Python regex word character, used for the word boundaries of the keyword
patterns. -/
def isWordChar (c : Char) : Bool := c.isAlphanum || c = '_'

/-- Whether a word boundary can stand just before position i, seen from the
non-word side: true at the ends of the string or next to a non-word char. -/
def boundaryAt (s : List Char) (i : Nat) : Bool :=
  match s.get? i with
  | none => true
  | some c => !(isWordChar c)

/-- Whether the pattern text p occurs at position pos of s. -/
def startsWithL (p s : List Char) (pos : Nat) : Bool :=
  (s.drop pos).take p.length == p

/-- Embedding of a keyword pattern such as "\bappend\b": the keyword text with
word boundaries on both sides, matched at a position. -/
def matchKeyword (w s : List Char) (pos : Nat) : Option Nat :=
  if startsWithL w s pos
      && (pos == 0 || boundaryAt s (pos - 1))
      && boundaryAt s (pos + w.length)
    then some (pos + w.length) else none

/-- Embedding of the CONSTANT pattern "TAB|SPACE|NEWLINE" (alternatives in
source order, no word boundaries). -/
def matchConstant (s : List Char) (pos : Nat) : Option Nat :=
  if startsWithL (chars "TAB") s pos then some (pos + 3)
  else if startsWithL (chars "SPACE") s pos then some (pos + 5)
  else if startsWithL (chars "NEWLINE") s pos then some (pos + 7)
  else none

/-- Matching of a single literal character, for the END and PLUS patterns. -/
def matchExact (c : Char) (s : List Char) (pos : Nat) : Option Nat :=
  if s.get? pos == some c then some (pos + 1) else none

/-- Length of the leading run of ASCII alphanumeric characters. -/
def alnumRunLen : List Char → Nat
  | [] => 0
  | c :: rest => if c.isAlphanum then alnumRunLen rest + 1 else 0

/-- Embedding of the ID pattern "[a-zA-Z][a-zA-Z0-9]*", greedy. -/
def matchId (s : List Char) (pos : Nat) : Option Nat :=
  match s.get? pos with
  | some c => if c.isAlpha then some (pos + 1 + alnumRunLen (s.drop (pos + 1))) else none
  | none => none

/-- Length consumed after the opening quote by the LITERAL body and closing
quote; the regex alternatives backslash-any (not newline, as the Python dot
does not match a newline) and plain non-quote non-backslash are deterministic,
so a direct scan embeds the pattern. -/
def litBodyLen : List Char → Option Nat
  | [] => none
  | c :: rest =>
    if c = qc then some 1
    else if c = bs then
      match rest with
      | [] => none
      | c2 :: rest2 => if c2 = '\n' then none else (litBodyLen rest2).map (fun n => n + 2)
    else (litBodyLen rest).map (fun n => n + 1)

/-- Embedding of the LITERAL pattern: a quote, the body scan, a closing quote. -/
def matchLiteral (s : List Char) (pos : Nat) : Option Nat :=
  if s.get? pos == some qc then (litBodyLen (s.drop (pos + 1))).map (fun n => pos + 1 + n)
  else none

/-- Python whitespace characters recognised by the regex class backslash-s. -/
def isPySpace (c : Char) : Bool :=
  c = ' ' || c = '\t' || c = '\n' || c = '\r' || c = Char.ofNat 11 || c = Char.ofNat 12

/-- Length of the leading whitespace run. -/
def spaceRunLen : List Char → Nat
  | [] => 0
  | c :: rest => if isPySpace c then spaceRunLen rest + 1 else 0

/-- Length of the leading run of one repeated character. -/
def charRunLen (t : Char) : List Char → Nat
  | [] => 0
  | c :: rest => if c = t then charRunLen t rest + 1 else 0

/-- Embedding of the WHITESPACE pattern: a whitespace run, or (per the source
regex, which spells a literal backslash) a backslash followed by a run of the
letter t or of the letter n. -/
def matchWhitespace (s : List Char) (pos : Nat) : Option Nat :=
  match s.get? pos with
  | none => none
  | some c =>
    if isPySpace c then some (pos + spaceRunLen (s.drop pos))
    else if c = bs then
      match s.get? (pos + 1) with
      | some c2 =>
        if c2 = 't' then some (pos + 1 + charRunLen 't' (s.drop (pos + 1)))
        else if c2 = 'n' then some (pos + 1 + charRunLen 'n' (s.drop (pos + 1)))
        else none
      | none => none
    else none

/-- The regex of one pattern entry, matched at a position: keyword patterns
carry their lowercase spelling, the remaining kinds their special regexes. -/
def patternAt (k : TokKind) (s : List Char) (pos : Nat) : Option Nat :=
  match k with
  | .APPEND => matchKeyword (chars "append") s pos
  | .EXIT => matchKeyword (chars "exit") s pos
  | .LIST => matchKeyword (chars "list") s pos
  | .PRINTLENGTH => matchKeyword (chars "printlength") s pos
  | .PRINTWORDS => matchKeyword (chars "printwords") s pos
  | .PRINTWORDCOUNT => matchKeyword (chars "printwordcount") s pos
  | .PRINT => matchKeyword (chars "print") s pos
  | .REVERSE => matchKeyword (chars "reverse") s pos
  | .SET => matchKeyword (chars "set") s pos
  | .CONSTANT => matchConstant s pos
  | .END => matchExact ';' s pos
  | .PLUS => matchExact '+' s pos
  | .ID => matchId s pos
  | .LITERAL => matchLiteral s pos
  | .WHITESPACE => matchWhitespace s pos

/-- The patterns list of the source, in its exact order. -/
def patternsOrder : List TokKind :=
  [.APPEND, .EXIT, .LIST, .PRINTLENGTH, .PRINTWORDS, .PRINTWORDCOUNT, .PRINT,
   .REVERSE, .SET, .CONSTANT, .END, .PLUS, .ID, .LITERAL, .WHITESPACE]

/-- The inner for loop of the lexer: try each pattern in order, the first
that matches wins. -/
def tryFirst (s : List Char) (pos : Nat) : List TokKind → Option (TokKind × Nat)
  | [] => none
  | k :: ks =>
    match patternAt k s pos with
    | some e => some (k, e)
    | none => tryFirst s pos ks

/-- Trial of all patterns at one position, in the fixed source order. -/
def tryPatterns (s : List Char) (pos : Nat) : Option (TokKind × Nat) :=
  tryFirst s pos patternsOrder

/-- Replacement of every backslash-quote pair by a quote, the re.sub of the
source applied to a literal body. -/
def unescapeQ : List Char → List Char
  | [] => []
  | c :: rest =>
    if c = bs then
      match rest with
      | [] => [bs]
      | c2 :: rest2 => if c2 = qc then qc :: unescapeQ rest2 else bs :: unescapeQ (c2 :: rest2)
    else c :: unescapeQ rest

/-- Token text from the raw matched text: literals lose their surrounding
quotes and have escaped quotes unescaped, everything else keeps the match. -/
def tokenText (k : TokKind) (raw : List Char) : List Char :=
  if k = .LITERAL then unescapeQ ((raw.drop 1).dropLast) else raw

/-- Main lexer loop: at each position try all patterns in order; emit a token
unless whitespace matched; fail with position and character when nothing
matches.  Every pattern consumes at least one character, so fuel equal to the
input length suffices. -/
def lexLoop (s : List Char) : Nat → Nat → Except (Nat × Char) (List Token)
  | _, 0 => .ok []
  | pos, fuel + 1 =>
    if pos < s.length then
      match tryPatterns s pos with
      | none =>
        match s.get? pos with
        | some c => .error (pos, c)
        | none => .ok []
      | some (k, e) =>
        match lexLoop s e fuel with
        | .error err => .error err
        | .ok toks =>
          if k = .WHITESPACE then .ok toks
          else .ok (Token.mk k (tokenText k ((s.drop pos).take (e - pos))) :: toks)
    else .ok []

/-- The lexer function of the source: token list or positional error. -/
def lexer (s : List Char) : Except (Nat × Char) (List Token) :=
  lexLoop s 0 (s.length + 1)

deriving instance DecidableEq for Except

/-- Count of double-quote characters in the buffer, the count call of the
source; every quote counts, escaped or not. -/
def quoteCount (b : List Char) : Nat := b.countP (fun c => c = qc)

/-- End positions (one past the semicolon) of the finditer over the buffer
with the pattern semicolon followed by a lookahead requiring an even number
of quote characters up to the end of the buffer. -/
def semiEnds (b : List Char) : List Nat :=
  ((List.range b.length).filter
      (fun i => (b.get? i == some ';') && (quoteCount (b.drop (i + 1)) % 2 == 0))).map
    (fun i => i + 1)

/-- The for loop of get_user_input over the precomputed match end positions:
each iteration slices the CURRENT buffer with the precomputed end position,
emits the prefix up to it, and drops one character more than it emitted. -/
def processMatches : List Nat → List Char → List (List Char) × List Char
  | [], b => ([], b)
  | e :: rest, b =>
    let r := processMatches rest (b.drop (e + 1))
    ((b.take e) :: r.1, r.2)

/-- One line of get_user_input at the segmentation level: append the line and
a newline to the buffer; if the total quote count is odd, keep accumulating;
otherwise emit one statement text per found terminator.  Returns the emitted
statement texts and the new buffer. -/
def lineStep (buf line : List Char) : List (List Char) × List Char :=
  let c := buf ++ line ++ ['\n']
  if quoteCount c % 2 = 1 then ([], c)
  else processMatches (semiEnds c) c

/-- The symbol table: the list of name-value records shared by all
Interpreter instances, in insertion order. -/
abbrev Table := List (List Char × List Char)

/-- One printed line of console output. -/
abbrev Msg := List Char

/-- Decimal digits of a number, for the formatted messages. -/
def natChars (n : Nat) : List Char := (toString n).toList

/-- The parser cursor: the token list, the current token (None before the
first next_token call and after exhaustion) and the index of the next token. -/
structure PState where
  tokens : List Token
  curr : Option Token
  idx : Nat
  deriving DecidableEq

/-- The next_token method: advance to the next token if any are left,
otherwise set the current token to None and leave the index unchanged. -/
def next_token (s : PState) : PState :=
  if s.idx < s.tokens.length then
    { tokens := s.tokens, curr := s.tokens.get? s.idx, idx := s.idx + 1 }
  else
    { tokens := s.tokens, curr := none, idx := s.idx }

/-- The token-mismatch message printed by valid_match. -/
def expectedMsg (expected : TokKind) (found : Token) : Msg :=
  chars "Expected " ++ kindChars expected ++ chars " but got a token " ++
    kindChars found.kind ++ chars " with value " ++ [qc] ++ found.text ++ [qc]

/-- The valid_match method: consume the current token when its kind matches,
otherwise print the mismatch message and stay put.  Subscripting the None
current token raises a TypeError, modelled as the none result. -/
def valid_match (s : PState) (expected : TokKind) : Option (PState × List Msg) :=
  match s.curr with
  | none => none
  | some t =>
    if t.kind = expected then some (next_token s, [])
    else some (s, [expectedMsg expected t])

/-- The isvalue helper: an ID, CONSTANT or LITERAL token is a value. -/
def isvalueK (k : TokKind) : Bool :=
  k = .ID || k = .CONSTANT || k = .LITERAL

/-- The while loop of the expression method, carrying the value and plus
counts; fuel bounds the iterations (tokens length plus one always suffices
since the cursor advances).  The none result models the TypeError of
subscripting a None current token (at the loop head or inside isvalue), and
the impossible fuel exhaustion. -/
def exprLoop : PState → Nat → Nat → Nat → Option (Bool × PState)
  | _, _, _, 0 => none
  | s, vc, pc, fuel + 1 =>
    match s.curr with
    | none => none
    | some t =>
      if t.kind = .END ∧ vc - pc = 1 then some (true, s)
      else if t.kind = .PLUS then
        let s1 := next_token s
        match s1.curr with
        | none => none
        | some t1 =>
          if isvalueK t1.kind then exprLoop (next_token s1) (vc + 1) (pc + 1) fuel
          else some (false, s1)
      else some (false, s)

/-- The expression method: require a first value, then run the loop; returns
the validity flag and the final cursor (the END token is not consumed). -/
def expression (s : PState) : Option (Bool × PState) :=
  match s.curr with
  | none => none
  | some t =>
    if isvalueK t.kind then exprLoop (next_token s) 1 0 (s.tokens.length + 1)
    else some (false, s)

/-- The first lookup of a record by variable name in the symbol table, the
get_table_record method (None when absent). -/
def get_table_record (table : Table) (target : List Char) : Option (List Char × List Char) :=
  match table with
  | [] => none
  | r :: rest => if r.1 = target then some r else get_table_record rest target

/-- Replacement of the first record equal to the given one, the index call
followed by the assignment at that index. -/
def replaceRecord : Table → (List Char × List Char) → (List Char × List Char) → Table
  | [], _, _ => []
  | r :: rest, target, new =>
    if r = target then new :: rest else r :: replaceRecord rest target new

/-- The undefined-variable message printed inside eval_expression. -/
def undefinedVarMsg (v : List Char) : Msg :=
  chars "ERROR: the variable " ++ v ++ chars " does not exist"

/-- The for loop of eval_expression from index i to stop inclusive: IDs are
resolved through the table (an absent name prints an error and yields None),
literals contribute their decoded text, the constants one whitespace
character each, every other kind (PLUS, and the END token included in the
range) contributes nothing.  The outer none models the IndexError of an
out-of-range subscript.  Fuel (first argument) makes the recursion
structural; stop plus two minus i always suffices. -/
def evalLoop (tokens : List Token) (table : Table) :
    Nat → Nat → Nat → List Char → Option (Option (List Char) × List Msg)
  | 0, _, _, _ => none
  | fuel + 1, i, stop, acc =>
    if i > stop then some (some acc, [])
    else
      match tokens.get? i with
      | none => none
      | some t =>
        match t.kind with
        | .ID =>
          match get_table_record table t.text with
          | some r => evalLoop tokens table fuel (i + 1) stop (acc ++ r.2)
          | none => some (none, [undefinedVarMsg t.text])
        | .LITERAL => evalLoop tokens table fuel (i + 1) stop (acc ++ t.text)
        | .CONSTANT =>
          if t.text = chars "SPACE" then evalLoop tokens table fuel (i + 1) stop (acc ++ [' '])
          else if t.text = chars "TAB" then evalLoop tokens table fuel (i + 1) stop (acc ++ ['\t'])
          else evalLoop tokens table fuel (i + 1) stop (acc ++ ['\n'])
        | _ => evalLoop tokens table fuel (i + 1) stop acc

/-- The eval_expression method over the stored token range. -/
def eval_expression (tokens : List Token) (table : Table) (start stop : Nat) :
    Option (Option (List Char) × List Msg) :=
  evalLoop tokens table (stop + 2) start stop []

/-- The append-failure message of do_append. -/
def appendFailMsg (v : List Char) : Msg :=
  chars "ERROR: the variable name " ++ v ++ chars " does not exist, append failed!"

/-- The do_append method: read the variable name from the second token,
evaluate the expression, then update the existing record with the
concatenation, or report the failure; the outer none models an IndexError. -/
def do_append (tokens : List Token) (table : Table) (start stop : Nat) :
    Option (Table × List Msg) :=
  match tokens.get? 1 with
  | none => none
  | some idTok =>
    match eval_expression tokens table start stop with
    | none => none
    | some (evaluated, msgs) =>
      match get_table_record table idTok.text with
      | some r =>
        match evaluated with
        | some v => some (replaceRecord table r (idTok.text, r.2 ++ v), msgs)
        | none => some (table, msgs)
      | none => some (table, msgs ++ [appendFailMsg idTok.text])

/-- The do_set method: evaluate, then overwrite the existing record in place
or append a fresh one; an invalid evaluation changes nothing. -/
def do_set (tokens : List Token) (table : Table) (start stop : Nat) :
    Option (Table × List Msg) :=
  match tokens.get? 1 with
  | none => none
  | some idTok =>
    match eval_expression tokens table start stop with
    | none => none
    | some (evaluated, msgs) =>
      match evaluated with
      | some v =>
        match get_table_record table idTok.text with
        | some r => some (replaceRecord table r (idTok.text, v), msgs)
        | none => some (table ++ [(idTok.text, v)], msgs)
      | none => some (table, msgs)

/-- Length consumed by the repeated group of the word regex: an apostrophe or
hyphen followed by a further alphanumeric run, as many times as possible.
Fuel makes the recursion structural; the list length always suffices since
every round consumes at least two characters. -/
def wordGroupsF : Nat → List Char → Nat
  | 0, _ => 0
  | _, [] => 0
  | fuel + 1, c :: rest =>
    if (c = apos || c = '-') && (0 < alnumRunLen rest) then
      alnumRunLen rest + 1 + wordGroupsF fuel (rest.drop (alnumRunLen rest))
    else 0

/-- The repeated group scan at full fuel. -/
def wordGroups (s : List Char) : Nat := wordGroupsF s.length s

/-- Match length of the word regex at the head of the list, assuming it
starts with an alphanumeric character: the alphanumeric run, the repeated
groups, and an optional trailing apostrophe. -/
def wordCoreLen (s : List Char) : Nat :=
  let n := alnumRunLen s
  let g := wordGroups (s.drop n)
  let t := if (s.drop (n + g)).head? = some apos then 1 else 0
  n + g + t

/-- Total match length of the word regex at this position: an optional
leading apostrophe (taken only when an alphanumeric character follows, as the
regex requires at least one), then the core.  None when no word starts here. -/
def wordAt (s : List Char) : Option Nat :=
  match s with
  | c :: rest =>
    if c = apos then
      if 0 < alnumRunLen rest then some (1 + wordCoreLen rest) else none
    else if 0 < alnumRunLen s then some (wordCoreLen s) else none
  | [] => none

/-- The re.findall of the word regex: scan left to right, taking each
leftmost non-overlapping word match (always of positive length).  Fuel makes
the recursion structural; the list length always suffices since every round
consumes at least one character. -/
def findWordsF : Nat → List Char → List (List Char)
  | 0, _ => []
  | _, [] => []
  | fuel + 1, c :: rest =>
    match wordAt (c :: rest) with
    | some n => (c :: rest).take n :: findWordsF fuel (rest.drop (n - 1))
    | none => findWordsF fuel rest

/-- The word scan at full fuel. -/
def findWords (s : List Char) : List (List Char) := findWordsF s.length s

/-- The space join of a word list, as the join call of the source. -/
def joinSpace : List (List Char) → List Char
  | [] => []
  | [w] => w
  | w :: ws => w ++ ' ' :: joinSpace ws

/-- The reverse-failure message of the reverse method. -/
def reverseFailMsg (v : List Char) : Msg :=
  chars "ERROR: the variable " ++ v ++ chars " does not exist. Reverse failed!"

/-- The reverse method: split the stored value into words, reverse their
order, rejoin with single spaces and update the record in place; an absent
variable prints the failure message.  The outer none models an IndexError. -/
def reverseVar (tokens : List Token) (table : Table) : Option (Table × List Msg) :=
  match tokens.get? 1 with
  | none => none
  | some idTok =>
    match get_table_record table idTok.text with
    | some r =>
      let words := findWords r.2
      let reversedValue := joinSpace words.reverse
      some (replaceRecord table r (idTok.text, reversedValue), [])
    | none => some (table, [reverseFailMsg idTok.text])

/-- The list_vars method output: the header with the record count, then one
line per record in table order. -/
def list_vars (table : Table) : List Msg :=
  (chars "Identifier List (" ++ natChars table.length ++ chars "):") ::
    table.map (fun r => r.1 ++ chars " : " ++ r.2)

/-- The diagnostic printed when a print statement has no valid expression
value (the source misspells existent). -/
def cannotPrintMsg : Msg := chars "Cannot print an invalid or non-exsistent expression"

/-- The expr_print method: evaluate the expression and print according to the
leading token kind; an invalid evaluation prints the diagnostic.  The outer
none models an IndexError. -/
def expr_print (tokens : List Token) (table : Table) (start stop : Nat) :
    Option (List Msg) :=
  match tokens.get? 0 with
  | none => none
  | some tok =>
    match eval_expression tokens table start stop with
    | none => none
    | some (evaluated, msgs) =>
      match evaluated with
      | some v =>
        let words := findWords v
        if tok.kind = .PRINT then some (msgs ++ [v])
        else if tok.kind = .PRINTLENGTH then
          some (msgs ++ [chars "Length:  " ++ natChars v.length])
        else if tok.kind = .PRINTWORDS then
          some (msgs ++ (chars "Words are:" :: words))
        else if tok.kind = .PRINTWORDCOUNT then
          some (msgs ++ [chars "Wordcount is: " ++ natChars words.length])
        else some msgs
      | none => some (msgs ++ [cannotPrintMsg])

/-- The unrecognized-statement message: the literal text (four trailing
spaces plus the print separator) followed by the space-joined token values. -/
def unrecognizedMsg (tokens : List Token) : Msg :=
  chars "ERROR: Invalid Input. This is not a recognised statement:     " ++
    joinSpace (tokens.map Token.text)

/-- The invalid-expression message of the APPEND and SET branch (three
spaces after the colon in the source). -/
def invalidExprMsgA : Msg :=
  chars "ERROR: Instruction has invalid expression. Expressions follow format:   \x27value \x7b+ value\x7d\x27"

/-- The invalid-expression message of the print branch (two spaces after the
colon in the source). -/
def invalidExprMsgB : Msg :=
  chars "ERROR: Instruction has invalid expression. Expressions follow format:  \x27value \x7b+ value\x7d\x27"

/-- Whether a kind name contains PRINT, the substring test of the dispatch. -/
def printKind (k : TokKind) : Bool :=
  k = .PRINT || k = .PRINTLENGTH || k = .PRINTWORDS || k = .PRINTWORDCOUNT

/-- Outcome of running the statement method on one token list: a normal
return, the SystemExit raised by the exit() call inside the EXIT branch, or
an uncaught TypeError or IndexError (subscripting None or out of range).
Each outcome carries the symbol table and the printed lines. -/
inductive StmtOut where
  | normal (table : Table) (out : List Msg)
  | sysExit (table : Table) (out : List Msg)
  | crash (table : Table) (out : List Msg)
  deriving DecidableEq

/-- The statement method: read the first token, dispatch on its kind, check
the statement syntax, and invoke the matching Interpreter action.  A failed
valid_match only prints; parsing and interpretation continue regardless. -/
def statement (tokens : List Token) (table : Table) : StmtOut :=
  let s1 := next_token { tokens := tokens, curr := none, idx := 0 }
  match s1.curr with
  | none => .crash table []
  | some t =>
    if t.kind = .APPEND ∨ t.kind = .SET then
      let s2 := next_token s1
      match valid_match s2 .ID with
      | none => .crash table []
      | some (s3, m1) =>
        let exprStart := s3.idx - 1
        match expression s3 with
        | none => .crash table m1
        | some (ok, s4) =>
          if ok = false then .normal table (m1 ++ [invalidExprMsgA])
          else
            let exprStop := s4.idx - 1
            match valid_match s4 .END with
            | none => .crash table m1
            | some (_, m2) =>
              if t.kind = .APPEND then
                match do_append tokens table exprStart exprStop with
                | none => .crash table (m1 ++ m2)
                | some (t2, m3) => .normal t2 (m1 ++ m2 ++ m3)
              else
                match do_set tokens table exprStart exprStop with
                | none => .crash table (m1 ++ m2)
                | some (t2, m3) => .normal t2 (m1 ++ m2 ++ m3)
    else if t.kind = .LIST then
      match valid_match (next_token s1) .END with
      | none => .crash table []
      | some (_, m) => .normal table (m ++ list_vars table)
    else if t.kind = .EXIT then
      match valid_match (next_token s1) .END with
      | none => .crash table []
      | some (_, m) => .sysExit table m
    else if t.kind = .REVERSE then
      match valid_match (next_token s1) .ID with
      | none => .crash table []
      | some (s3, m1) =>
        match valid_match s3 .END with
        | none => .crash table m1
        | some (_, m2) =>
          match reverseVar tokens table with
          | none => .crash table (m1 ++ m2)
          | some (t2, m3) => .normal t2 (m1 ++ m2 ++ m3)
    else if printKind t.kind then
      let s2 := next_token s1
      let exprStart := s2.idx - 1
      match expression s2 with
      | none => .crash table []
      | some (ok, s3) =>
        if ok = false then .normal table [invalidExprMsgB]
        else
          let exprStop := s3.idx - 1
          match valid_match s3 .END with
          | none => .crash table []
          | some (_, m2) =>
            match expr_print tokens table exprStart exprStop with
            | none => .crash table m2
            | some m3 => .normal table (m2 ++ m3)
    else
      .normal table [unrecognizedMsg tokens]

/-- The error line printed when the lexer raises its ValueError. -/
def lexErrMsg (p : Nat) (c : Char) : Msg :=
  chars "ERROR: Unexpected token entered at position " ++ natChars p ++
    chars ": " ++ [apos, c, apos] ++ chars ". Try input again"

/-- Outcome of one accumulated input line: a normal return with the new
buffer, a propagated SystemExit, or a propagated uncaught exception. -/
inductive LineOutcome where
  | normal (buf : List Char) (table : Table) (out : List Msg)
  | exited (table : Table) (out : List Msg)
  | crashed (table : Table) (out : List Msg)
  deriving DecidableEq

/-- The segment loop of get_user_input: slice the current buffer at each
precomputed end position, lex and run each statement; a lexer ValueError is
caught and printed, while SystemExit and TypeError abort the whole loop. -/
def processSegsGo : List Nat → List Char → Table → List Msg → LineOutcome
  | [], b, t, out => .normal b t out
  | e :: rest, b, t, out =>
    let seg := b.take e
    let b2 := b.drop (e + 1)
    match lexer seg with
    | .error pc => processSegsGo rest b2 t (out ++ [lexErrMsg pc.1 pc.2])
    | .ok toks =>
      match statement toks t with
      | .normal t2 msgs => processSegsGo rest b2 t2 (out ++ msgs)
      | .sysExit t2 msgs => .exited t2 (out ++ msgs)
      | .crash t2 msgs => .crashed t2 (out ++ msgs)

/-- One full iteration of the get_user_input read loop on a received line:
accumulate, decide literal continuation by total quote parity, then process
every found statement terminator. -/
def processLine (buf line : List Char) (table : Table) : LineOutcome :=
  let c := buf ++ line ++ ['\n']
  if quoteCount c % 2 = 1 then .normal c table []
  else processSegsGo (semiEnds c) c table []

/-- Count of UNESCAPED double-quote characters, following the words of the
specification (a quote preceded by a backslash does not count); stated for
comparison with quoteCount, the count the code actually performs. -/
def specUnescapedQuoteCount : List Char → Nat
  | [] => 0
  | c :: rest =>
    if c = bs then
      match rest with
      | [] => 0
      | _ :: rest2 => specUnescapedQuoteCount rest2
    else if c = qc then specUnescapedQuoteCount rest + 1
    else specUnescapedQuoteCount rest

/-- Contribution of one expression token per the words of the specification:
an ID the value looked up in the table (none if absent), a LITERAL its
decoded text, a CONSTANT one space, tab or newline character, and a PLUS
(or any other separator token in the stored range) nothing. -/
def termContribution (table : Table) (t : Token) : Option (List Char) :=
  match t.kind with
  | .ID => (get_table_record table t.text).map (fun r => r.2)
  | .LITERAL => some t.text
  | .CONSTANT =>
    some (if t.text = chars "SPACE" then [' ']
      else if t.text = chars "TAB" then ['\t'] else ['\n'])
  | _ => some []

/-- The left-to-right concatenation of the token contributions per the words
of the specification: none as soon as any contribution is none, with no
partial result. -/
def specEval (table : Table) : List Token → Option (List Char)
  | [] => some []
  | t :: ts =>
    match termContribution table t with
    | none => none
    | some v => (specEval table ts).map (fun w => v ++ w)

/-- The expression shape of the specification after its first term: either
the END terminator is reached, or a PLUS followed by another term continues
the shape. -/
def goodExprTail : List Token → Bool
  | [] => false
  | t :: rest =>
    if t.kind = .END then true
    else if t.kind = .PLUS then
      match rest with
      | [] => false
      | t1 :: rest1 => isvalueK t1.kind && goodExprTail rest1
    else false

/-- The expression shape of the specification: Term (PLUS Term)* followed by
the END terminator (tokens beyond that END are not constrained, as the
expression method never reads past it). -/
def goodExpr : List Token → Bool
  | [] => false
  | t :: rest => isvalueK t.kind && goodExprTail rest

/-- Well-formedness of a parser cursor as maintained by next_token: either
exhausted (current token None, index at the end), or the current token is the
token just before the index. -/
def pinv (s : PState) : Prop :=
  (s.curr = none ∧ s.idx = s.tokens.length) ∨
  (1 ≤ s.idx ∧ s.idx ≤ s.tokens.length ∧ s.curr = s.tokens.get? (s.idx - 1))

/-- The tokens not yet consumed, the current token included. -/
def rem (s : PState) : List Token :=
  match s.curr with
  | none => []
  | some _ => s.tokens.drop (s.idx - 1)

/-- The variable names of the table, in table order. -/
def keys (t : Table) : List (List Char) := t.map (fun r => r.1)

/-- The symbol table carried by a statement outcome. -/
def outTable : StmtOut → Table
  | .normal t _ => t
  | .sysExit t _ => t
  | .crash t _ => t

/-- The symbol tables reachable in a session: the empty table of program
start, closed under running one statement of any token list. -/
inductive ReachableTable : Table → Prop
  | init : ReachableTable []
  | step (t : Table) (toks : List Token) (h : ReachableTable t) :
      ReachableTable (outTable (statement toks t))

/-- C3.  The claim says a token-kind mismatch skips the statement execution and
leaves the symbol table untouched.  The code only prints the mismatch message
and carries on: on the statement text append "x"; (ID expected after APPEND
but a LITERAL found) with the variable x bound to v, the parser still calls
do_append, the literal text x is treated as the variable name, the table IS
consulted and mutated: x becomes vx.  This contradicts the claim, and the
specification itself flags the continue-after-mismatch behaviour as a bug of
the source, so the claim records the intent and the code is in error. -/
theorem c3_mismatch_executes_and_mutates :
    statement [Token.mk .APPEND (chars "append"), Token.mk .LITERAL (chars "x"),
        Token.mk .END (chars ";")] [(chars "x", chars "v")]
      = .normal [(chars "x", chars "vx")]
          [expectedMsg .ID (Token.mk .LITERAL (chars "x"))] := by decide

/-- C4.  The claim says no input other than an exit statement can terminate
the session: every malformed statement is recovered at the statement
boundary.  But the single line of three back-to-back empty statements makes
the segment loop (whose end positions were precomputed on the original buffer
and are not rebased after each removal) slice an EMPTY third segment; the
lexer returns an empty token list, and the statement method subscripts its
None current token: an uncaught TypeError that kills the whole session after
the first two statements printed their unrecognized-statement errors. -/
theorem c4_crash_on_empty_segment :
    processLine [] (chars ";;;") []
      = .crashed []
          [unrecognizedMsg [Token.mk .END (chars ";")],
           unrecognizedMsg [Token.mk .END (chars ";")]]
    ∧ lexer [] = .ok [] := by decide

/-- C5 counterexample.  The claim says Exit signals termination as a control
value returned to the read loop and never as a direct abrupt halt from inside
the Parser or Interpreter.  In the code the EXIT branch of Parser.statement
calls exit() itself, raising SystemExit there; the StmtOut.sysExit outcome
marks exactly that in-parser call site, so the claim as stated is false. -/
theorem c5_counterexample :
    statement [Token.mk .EXIT (chars "exit"), Token.mk .END (chars ";")] []
      = .sysExit [] [] := by decide

/-- C5 amended.  Executing Exit terminates the session by the exit() call
performed directly inside the EXIT branch of Parser.statement (raising
SystemExit); the exception propagates through the segment loop, abandoning
any further already-segmented statements of the same line (the list statement
below is never run), and out of the read loop, which never inspects any
returned control value. -/
theorem c5_amended :
    processLine [] (chars "exit;") [] = .exited [] []
    ∧ processLine [] (chars "exit; list;") [] = .exited [] [] := by decide

/-- C9 counterexample.  The claim reads the statement keywords of the
external grammar case-sensitively as written there (APPEND, SET, ...), and
says lexing such a spelling yields the keyword token and never an ID token.
The keyword patterns of the code match only the lowercase spellings, so the
grammar spellings fall through to the ID pattern. -/
theorem c9_counterexample :
    lexer (chars "SET") = .ok [Token.mk .ID (chars "SET")]
    ∧ lexer (chars "APPEND") = .ok [Token.mk .ID (chars "APPEND")]
    ∧ lexer (chars "Set") = .ok [Token.mk .ID (chars "Set")] := by decide

/-- C9 amended.  The keyword spellings of the lexer are the lowercase words
append, exit, list, printlength, printwords, printwordcount, print, reverse,
set; lexing each of those exact spellings produces its keyword token and
never an ID token, because the keyword patterns are tried before the ID
pattern in the fixed source order (each of these words also matches the later
ID pattern, so the order is significant). -/
theorem c9_amended :
    lexer (chars "append") = .ok [Token.mk .APPEND (chars "append")]
    ∧ lexer (chars "exit") = .ok [Token.mk .EXIT (chars "exit")]
    ∧ lexer (chars "list") = .ok [Token.mk .LIST (chars "list")]
    ∧ lexer (chars "printlength") = .ok [Token.mk .PRINTLENGTH (chars "printlength")]
    ∧ lexer (chars "printwords") = .ok [Token.mk .PRINTWORDS (chars "printwords")]
    ∧ lexer (chars "printwordcount") = .ok [Token.mk .PRINTWORDCOUNT (chars "printwordcount")]
    ∧ lexer (chars "print") = .ok [Token.mk .PRINT (chars "print")]
    ∧ lexer (chars "reverse") = .ok [Token.mk .REVERSE (chars "reverse")]
    ∧ lexer (chars "set") = .ok [Token.mk .SET (chars "set")]
    ∧ matchId (chars "set") 0 = some 3 := by decide

/-- C1 counterexample.  The claim says the segmenter counts UNESCAPED quotes
modulo 2 and that a terminator inside a string literal never ends a
statement.  The code counts every quote, escaped ones included: on the single
line set v "a\"; the buffer holds one unescaped quote (odd, so by the claim
the segmenter is inside the unterminated literal and must keep accumulating)
but two quote characters in total (even), so the code scans, finds the
semicolon (zero quotes follow it) and emits the whole line as a statement,
ending the statement at a terminator that lies inside the open literal. -/
theorem c1_counterexample :
    specUnescapedQuoteCount (chars "set v \"a\\\";" ++ ['\n']) % 2 = 1
    ∧ (lineStep [] (chars "set v \"a\\\";")).1 = [chars "set v \"a\\\";"] := by decide

/-- C1 amended.  The segmenter decides literal continuation by the parity of
ALL double-quote characters (escaped ones included): when the buffer holds an
even number of quotes, the semicolons it treats as terminators are exactly
those followed by an even number of quote characters, equivalently those
preceded by an even number — i.e. the semicolons outside the quote-parity
literal regions.  For input free of backslash-escaped quotes these regions
are the string literals, so an embedded terminator never splits, and the
line Set a "semi;colon"; Print a; yields exactly two statement texts. -/
theorem c1_amended :
    (∀ (b : List Char) (i : Nat), quoteCount b % 2 = 0 → b.get? i = some ';' →
      ((i + 1) ∈ semiEnds b ↔ quoteCount (b.take i) % 2 = 0))
    ∧ (lineStep [] (chars "Set a \"semi;colon\"; Print a;")).1
        = [chars "Set a \"semi;colon\";", chars "Print a;" ++ ['\n']] := by
  constructor
  · intro b i hpar hget
    obtain ⟨hlt, -⟩ := List.get?_eq_some.mp hget
    have hmem : ((i + 1) ∈ semiEnds b) ↔ (quoteCount (b.drop (i + 1)) % 2 = 0) := by
      unfold semiEnds
      constructor
      · intro h
        obtain ⟨j, hj, hj2⟩ := List.mem_map.mp h
        have hji : j = i := by omega
        subst hji
        have h2 := (List.mem_filter.mp hj).2
        simp only [Bool.and_eq_true, beq_iff_eq] at h2
        exact h2.2
      · intro h
        refine List.mem_map.mpr ⟨i, List.mem_filter.mpr ⟨List.mem_range.mpr hlt, ?_⟩, rfl⟩
        simp only [Bool.and_eq_true, beq_iff_eq]
        exact ⟨hget, h⟩
    have hsplit : quoteCount b = quoteCount (b.take (i + 1)) + quoteCount (b.drop (i + 1)) := by
      unfold quoteCount
      rw [← List.countP_append, List.take_append_drop]
    have htake : quoteCount (b.take (i + 1)) = quoteCount (b.take i) := by
      unfold quoteCount
      have hget2 : b[i]? = some ';' := by rw [← List.get?_eq_getElem?]; exact hget
      have hq : ¬ (';' : Char) = qc := by decide
      rw [List.take_succ, hget2, List.countP_append]
      simp [List.countP_cons, hq]
    rw [hmem]
    omega
  · decide

/-- C1 witness: the amended parity characterisation applied to the buffer of
the line a; at the position of its semicolon. -/
theorem c1_witness :
    ((1 + 1) ∈ semiEnds (chars "a;" ++ ['\n'])
      ↔ quoteCount ((chars "a;" ++ ['\n']).take 1) % 2 = 0) :=
  c1_amended.1 (chars "a;" ++ ['\n']) 1 (by decide) (by decide)

/-- A range filter whose predicate holds exactly at one point yields exactly
that point. -/
theorem filter_range_single (p : Nat → Bool) (n m : Nat) (hm : m < n)
    (hp : ∀ i, i < n → (p i = true ↔ i = m)) :
    (List.range n).filter p = [m] := by
  induction n with
  | zero => omega
  | succ k ih =>
    rw [List.range_succ, List.filter_append]
    by_cases hmk : m = k
    · subst hmk
      have h1 : (List.range m).filter p = [] := by
        rw [List.filter_eq_nil]
        intro a ha
        have halt := List.mem_range.mp ha
        intro hpa
        have := (hp a (by omega)).mp hpa
        omega
      have h2 : List.filter p [m] = [m] := by
        have := (hp m (by omega)).mpr rfl
        simp [List.filter, this]
      rw [h1, h2]
      rfl
    · have hmk2 : m < k := by omega
      have h1 := ih hmk2 (fun i hi => hp i (by omega))
      have h2 : List.filter p [k] = [] := by
        have hnk : ¬ p k = true := by
          intro hk
          exact hmk ((hp k (by omega)).mp hk).symm
        simp [List.filter, hnk]
      rw [h1, h2, List.append_nil]

/-- In a buffer made of a semicolon-free quote-free head, one semicolon, and
a semicolon-free quote-free tail, the quote-aware scan finds exactly the one
semicolon. -/
theorem semiEnds_single (s t : List Char) (c : Char)
    (hs1 : ';' ∉ s) (hs2 : qc ∉ s) (hc1 : c ≠ ';') (hc2 : c ≠ qc)
    (ht1 : ';' ∉ t) (ht2 : qc ∉ t) :
    semiEnds (s ++ ';' :: c :: t) = [s.length + 1] := by
  unfold semiEnds
  have hlen : (s ++ ';' :: c :: t).length = s.length + (t.length + 2) := by
    simp [List.length_append]
  have hfil : (List.range (s ++ ';' :: c :: t).length).filter
      (fun i => ((s ++ ';' :: c :: t).get? i == some ';')
        && (quoteCount ((s ++ ';' :: c :: t).drop (i + 1)) % 2 == 0)) = [s.length] := by
    apply filter_range_single
    · omega
    · intro i hi
      constructor
      · intro hpi
        simp only [Bool.and_eq_true, beq_iff_eq] at hpi
        obtain ⟨hp1, hp2⟩ := hpi
        by_contra hne
        rcases Nat.lt_or_ge i s.length with hlti | hgei
        · rw [List.get?_append hlti] at hp1
          obtain ⟨hh, hmm⟩ := List.get?_eq_some.mp hp1
          have hin : s.get ⟨i, hh⟩ ∈ s := List.get_mem s i hh
          rw [hmm] at hin
          exact hs1 hin
        · have hgt : 1 ≤ i - s.length := by omega
          rw [List.get?_append_right hgei] at hp1
          rcases Nat.eq_or_lt_of_le hgt with h1 | h2
          · rw [← h1] at hp1
            exact hc1 (Option.some_injective _ hp1)
          · obtain ⟨j, hj⟩ : ∃ j, i - s.length = j + 2 := ⟨i - s.length - 2, by omega⟩
            rw [hj] at hp1
            have hp1t : t.get? j = some ';' := hp1
            obtain ⟨hh, hmm⟩ := List.get?_eq_some.mp hp1t
            have hin : t.get ⟨j, hh⟩ ∈ t := List.get_mem t j hh
            rw [hmm] at hin
            exact ht1 hin
      · intro hie
        subst hie
        simp only [Bool.and_eq_true, beq_iff_eq]
        refine ⟨?_, ?_⟩
        · rw [List.get?_append_right (Nat.le_refl _)]
          simp
        · have hdrop : (s ++ ';' :: c :: t).drop (s.length + 1) = c :: t := by
            rw [List.drop_append_eq_append_drop]
            have h1 : s.drop (s.length + 1) = [] := List.drop_eq_nil_of_le (by omega)
            have h2 : s.length + 1 - s.length = 1 := by omega
            rw [h1, h2]
            rfl
          rw [hdrop]
          have hq0 : quoteCount (c :: t) = 0 := by
            unfold quoteCount
            rw [List.countP_eq_zero]
            intro a ha
            simp only [decide_eq_true_eq]
            rcases List.mem_cons.mp ha with h | h
            · rw [h]; exact hc2
            · exact fun he => ht2 (he ▸ h)
          rw [hq0]
  rw [hfil]
  rfl

/-- C2 counterexample.  The claim says each emitted statement unit is the
buffer prefix through its terminator and exactly that prefix is removed, so
that a line holding two complete statements yields both texts intact.  On the
back-to-back line set a "x";set b "y"; the code removes one character more
than it emits and keeps the stale precomputed offsets, so the second emitted
unit is et b "y"; — the second statement text is not produced at all. -/
theorem c2_counterexample :
    (lineStep [] (chars "set a \"x\";set b \"y\";")).1
        = [chars "set a \"x\";", chars "et b \"y\";" ++ ['\n']]
    ∧ ¬ chars "set b \"y\";" ∈ (lineStep [] (chars "set a \"x\";set b \"y\";")).1 := by
  decide

/-- C2 amended.  The segmenter precomputes the terminator end positions once
per scan and, for each in order, emits the CURRENT buffer up to that
unrebased position and then removes that prefix PLUS the one character
following the terminator.  Hence with a single terminator the retained
content is the tail minus the character right after the semicolon; a
two-statement line survives when a separator character follows the first
terminator (the space-separated line below yields both texts), while
back-to-back statements lose the second text's first character. -/
theorem c2_amended :
    (∀ (s t : List Char) (c : Char),
        ';' ∉ s → qc ∉ s → c ≠ ';' → c ≠ qc → ';' ∉ t → qc ∉ t →
        processMatches (semiEnds (s ++ ';' :: c :: t)) (s ++ ';' :: c :: t)
          = ([s ++ [';']], t))
    ∧ (lineStep [] (chars "set a \"x\"; set b \"y\";")).1
        = [chars "set a \"x\";", chars "set b \"y\";" ++ ['\n']]
    ∧ (lineStep [] (chars "set a \"x\";set b \"y\";")).1
        = [chars "set a \"x\";", chars "et b \"y\";" ++ ['\n']] := by
  refine ⟨?_, by decide, by decide⟩
  intro s t c hs1 hs2 hc1 hc2 ht1 ht2
  rw [semiEnds_single s t c hs1 hs2 hc1 hc2 ht1 ht2]
  have htake : (s ++ ';' :: c :: t).take (s.length + 1) = s ++ [';'] := by
    rw [List.take_append_eq_append_take]
    have h1 : s.take (s.length + 1) = s := List.take_all_of_le (by omega)
    have h2 : s.length + 1 - s.length = 1 := by omega
    rw [h1, h2]
    rfl
  have hdrop : (s ++ ';' :: c :: t).drop (s.length + 1 + 1) = t := by
    rw [List.drop_append_eq_append_drop]
    have h1 : s.drop (s.length + 1 + 1) = [] := List.drop_eq_nil_of_le (by omega)
    have h2 : s.length + 1 + 1 - s.length = 2 := by omega
    rw [h1, h2]
    rfl
  simp [processMatches, htake, hdrop]

/-- C2 witness: the amended single-terminator characterisation applied to the
buffer of the line a; — the emitted unit is a; and the trailing newline (the
character after the terminator) is dropped from the retained buffer. -/
theorem c2_witness :
    processMatches (semiEnds (chars "a" ++ ';' :: '\n' :: []))
        (chars "a" ++ ';' :: '\n' :: [])
      = ([chars "a" ++ [';']], []) :=
  c2_amended.1 (chars "a") [] '\n' (by decide) (by decide) (by decide) (by decide)
    (by decide) (by decide)

/-- The evaluation loop agrees with the specification-side concatenation of
the token contributions, for any stored range inside the token list and any
sufficient fuel. -/
theorem evalLoop_spec (tokens : List Token) (table : Table) (stop : Nat)
    (hstop : stop < tokens.length) :
    ∀ (n i : Nat) (acc : List Char) (fuel : Nat),
      i + n = stop + 1 → stop + 2 - i ≤ fuel →
      (evalLoop tokens table fuel i stop acc).map (fun r => r.1)
        = some ((specEval table ((tokens.drop i).take n)).map (fun w => acc ++ w)) := by
  intro n
  induction n with
  | zero =>
    intro i acc fuel h1 h2
    obtain ⟨f, rfl⟩ : ∃ f, fuel = f + 1 := ⟨fuel - 1, by omega⟩
    have hgt : i > stop := by omega
    unfold evalLoop
    rw [if_pos hgt]
    simp [specEval]
  | succ k ih =>
    intro i acc fuel h1 h2
    obtain ⟨f, rfl⟩ : ∃ f, fuel = f + 1 := ⟨fuel - 1, by omega⟩
    have hile : ¬ i > stop := by omega
    have hil : i < tokens.length := by omega
    have htg : tokens.get? i = some (tokens.get ⟨i, hil⟩) := List.get?_eq_get hil
    set t := tokens.get ⟨i, hil⟩ with htdef
    have hdrop : tokens.drop i = t :: tokens.drop (i + 1) := List.drop_eq_get_cons hil
    have hslice : (tokens.drop i).take (k + 1) = t :: (tokens.drop (i + 1)).take k := by
      rw [hdrop, List.take_succ_cons]
    have hstep : ∀ v : List Char,
        (evalLoop tokens table f (i + 1) stop (acc ++ v)).map (fun r => r.1)
          = some ((specEval table ((tokens.drop (i + 1)).take k)).map
              (fun w => (acc ++ v) ++ w)) :=
      fun v => ih (i + 1) (acc ++ v) f (by omega) (by omega)
    rw [hslice]
    unfold evalLoop
    rw [if_neg hile, htg]
    cases hk : t.kind
    case ID =>
      cases hrec : get_table_record table t.text with
      | none => simp [specEval, termContribution, hk, hrec]
      | some r =>
        simp only [hk, hrec]
        rw [ih (i + 1) (acc ++ r.2) f (by omega) (by omega)]
        simp only [specEval, termContribution, hk, hrec, Option.map_some']
        cases hse : specEval table ((tokens.drop (i + 1)).take k) <;>
          simp [List.append_assoc]
    case LITERAL =>
      simp only [hk]
      rw [ih (i + 1) (acc ++ t.text) f (by omega) (by omega)]
      simp only [specEval, termContribution, hk]
      cases hse : specEval table ((tokens.drop (i + 1)).take k) <;>
        simp [List.append_assoc]
    case CONSTANT =>
      simp only [hk]
      by_cases hsp : t.text = chars "SPACE"
      · rw [if_pos hsp]
        rw [ih (i + 1) (acc ++ [' ']) f (by omega) (by omega)]
        simp only [specEval, termContribution, hk, if_pos hsp]
        cases hse : specEval table ((tokens.drop (i + 1)).take k) <;>
          simp [List.append_assoc]
      · by_cases htb : t.text = chars "TAB"
        · rw [if_neg hsp, if_pos htb]
          rw [ih (i + 1) (acc ++ ['\t']) f (by omega) (by omega)]
          simp only [specEval, termContribution, hk, if_neg hsp, if_pos htb]
          cases hse : specEval table ((tokens.drop (i + 1)).take k) <;>
            simp [List.append_assoc]
        · rw [if_neg hsp, if_neg htb]
          rw [ih (i + 1) (acc ++ ['\n']) f (by omega) (by omega)]
          simp only [specEval, termContribution, hk, if_neg hsp, if_neg htb]
          cases hse : specEval table ((tokens.drop (i + 1)).take k) <;>
            simp [List.append_assoc]
    all_goals
      simp only [hk]
      rw [ih (i + 1) acc f (by omega) (by omega)]
      simp only [specEval, termContribution, hk]
      cases hse : specEval table ((tokens.drop (i + 1)).take k) <;> simp

/-- C6.  For every stored expression range, the evaluated value is the
left-to-right concatenation of the token contributions: an ID the current
table value of that name, a LITERAL its decoded text, a CONSTANT one space,
tab or newline character, PLUS tokens nothing; and the whole evaluation is
none — no partial result — exactly when some ID in the range is absent from
the table (specEval is none precisely then).  The second conjunct shows the
failing evaluation also prints the undefined-variable error. -/
theorem c6_eval_concatenation :
    (∀ (tokens : List Token) (table : Table) (start stop : Nat),
      stop < tokens.length → start ≤ stop + 1 →
      (eval_expression tokens table start stop).map (fun r => r.1)
        = some (specEval table ((tokens.drop start).take (stop + 1 - start))))
    ∧ eval_expression [Token.mk .ID (chars "x"), Token.mk .END (chars ";")] [] 0 1
        = some (none, [undefinedVarMsg (chars "x")]) := by
  refine ⟨?_, by decide⟩
  intro tokens table start stop h1 h2
  have h := evalLoop_spec tokens table stop h1 (stop + 1 - start) start [] (stop + 2)
    (by omega) (by omega)
  unfold eval_expression
  rw [h]
  cases hse : specEval table ((tokens.drop start).take (stop + 1 - start)) <;> simp

/-- C6 witness: the concatenation characterisation applied to the expression
range of the statement set a "y" + SPACE ... with a bound to x. -/
theorem c6_witness :
    (eval_expression [Token.mk .SET (chars "set"), Token.mk .ID (chars "a"),
        Token.mk .LITERAL (chars "y"), Token.mk .PLUS (chars "+"),
        Token.mk .CONSTANT (chars "SPACE"), Token.mk .END (chars ";")]
        [(chars "a", chars "x")] 2 5).map (fun r => r.1)
      = some (specEval [(chars "a", chars "x")]
          (([Token.mk .SET (chars "set"), Token.mk .ID (chars "a"),
            Token.mk .LITERAL (chars "y"), Token.mk .PLUS (chars "+"),
            Token.mk .CONSTANT (chars "SPACE"), Token.mk .END (chars ";")].drop 2).take
            (5 + 1 - 2))) :=
  c6_eval_concatenation.1 _ _ 2 5 (by decide) (by decide)

/-- A record found by name carries that name. -/
theorem get_table_record_name (table : Table) (x : List Char) (r : List Char × List Char)
    (h : get_table_record table x = some r) : r.1 = x := by
  induction table with
  | nil => simp [get_table_record] at h
  | cons a rest ih =>
    unfold get_table_record at h
    by_cases ha : a.1 = x
    · rw [if_pos ha] at h
      injection h with h
      rw [← h]
      exact ha
    · rw [if_neg ha] at h
      exact ih h

/-- Replacing the record found by name with a record of the same name makes
the later lookup of that name find the new record. -/
theorem get_replaceRecord (table : Table) (x : List Char) (r new : List Char × List Char)
    (h : get_table_record table x = some r) (hn : new.1 = x) :
    get_table_record (replaceRecord table r new) x = some new := by
  induction table with
  | nil => simp [get_table_record] at h
  | cons a rest ih =>
    unfold get_table_record at h
    by_cases ha : a.1 = x
    · rw [if_pos ha] at h
      injection h with h
      subst h
      unfold replaceRecord
      rw [if_pos rfl]
      unfold get_table_record
      rw [if_pos hn]
    · rw [if_neg ha] at h
      have hr1 : r.1 = x := get_table_record_name rest x r h
      have har : a ≠ r := fun he => ha (by rw [he, hr1])
      unfold replaceRecord
      rw [if_neg har]
      unfold get_table_record
      rw [if_neg ha]
      exact ih h

/-- C7.  For an Append statement (variable name read from the second token,
the stored expression range evaluated first): if the name is absent from the
table, the append-failure message is printed after any evaluation output and
the table is unchanged; if the name is present and the evaluation succeeded
with value v, exactly that record is overwritten in place with the old value
concatenated with v (and looking the name up afterwards yields old ++ v); if
the evaluation failed, the table is unchanged. -/
theorem c7_do_append_cases :
    ∀ (tokens : List Token) (table : Table) (start stop : Nat) (idTok : Token)
      (evalVal : Option (List Char)) (evalMsgs : List Msg),
      tokens.get? 1 = some idTok →
      eval_expression tokens table start stop = some (evalVal, evalMsgs) →
      ((get_table_record table idTok.text = none →
          do_append tokens table start stop
            = some (table, evalMsgs ++ [appendFailMsg idTok.text]))
       ∧ (∀ r v, get_table_record table idTok.text = some r → evalVal = some v →
          do_append tokens table start stop
            = some (replaceRecord table r (idTok.text, r.2 ++ v), evalMsgs)
          ∧ get_table_record (replaceRecord table r (idTok.text, r.2 ++ v)) idTok.text
            = some (idTok.text, r.2 ++ v))
       ∧ (∀ r, get_table_record table idTok.text = some r → evalVal = none →
          do_append tokens table start stop = some (table, evalMsgs))) := by
  intro tokens table start stop idTok evalVal evalMsgs hid heval
  refine ⟨?_, ?_, ?_⟩
  · intro habs
    unfold do_append
    rw [hid, heval]
    simp [habs]
  · intro r v hrec hv
    subst hv
    constructor
    · unfold do_append
      rw [hid, heval]
      simp [hrec]
    · exact get_replaceRecord table idTok.text r (idTok.text, r.2 ++ v) hrec rfl
  · intro r hrec hv
    subst hv
    unfold do_append
    rw [hid, heval]
    simp [hrec]

/-- C7 witness: the three-way case split applied to the statement
append a "y"; with a bound to x — the present-and-success case overwrites a
with xy in place. -/
theorem c7_witness :
    (do_append [Token.mk .APPEND (chars "append"), Token.mk .ID (chars "a"),
        Token.mk .LITERAL (chars "y"), Token.mk .END (chars ";")]
        [(chars "a", chars "x")] 2 3
      = some (replaceRecord [(chars "a", chars "x")] (chars "a", chars "x")
          (chars "a", chars "x" ++ chars "y"), [])
    ∧ get_table_record (replaceRecord [(chars "a", chars "x")] (chars "a", chars "x")
          (chars "a", chars "x" ++ chars "y")) (chars "a")
        = some (chars "a", chars "x" ++ chars "y")) :=
  (c7_do_append_cases [Token.mk .APPEND (chars "append"), Token.mk .ID (chars "a"),
      Token.mk .LITERAL (chars "y"), Token.mk .END (chars ";")]
      [(chars "a", chars "x")] 2 3 (Token.mk .ID (chars "a")) (some (chars "y")) []
      (by decide) (by decide)).2.1 (chars "a", chars "x") (chars "y") (by decide) rfl

/-- Advancing the cursor never changes the token list. -/
theorem next_token_tokens (s : PState) : (next_token s).tokens = s.tokens := by
  unfold next_token
  split <;> rfl

/-- Advancing the cursor never decreases the index. -/
theorem next_token_idx_ge (s : PState) : s.idx ≤ (next_token s).idx := by
  unfold next_token
  split <;> simp

/-- A successful advance means the index was in range and moved up by one. -/
theorem next_token_some_idx (s : PState) (t1 : Token) (h : (next_token s).curr = some t1) :
    s.idx < s.tokens.length ∧ (next_token s).idx = s.idx + 1 := by
  by_cases hlt : s.idx < s.tokens.length
  · refine ⟨hlt, ?_⟩
    unfold next_token
    rw [if_pos hlt]
  · unfold next_token at h
    rw [if_neg hlt] at h
    exact absurd h (by simp)

/-- The cursor well-formedness is preserved by next_token. -/
theorem pinv_next (s : PState) (h : pinv s) : pinv (next_token s) := by
  unfold pinv at h ⊢
  unfold next_token
  by_cases hlt : s.idx < s.tokens.length
  · rw [if_pos hlt]
    right
    refine ⟨?_, ?_, ?_⟩
    · show 1 ≤ s.idx + 1
      omega
    · show s.idx + 1 ≤ s.tokens.length
      omega
    · show s.tokens.get? s.idx = s.tokens.get? (s.idx + 1 - 1)
      rfl
  · rw [if_neg hlt]
    left
    refine ⟨rfl, ?_⟩
    show s.idx = s.tokens.length
    rcases h with ⟨h1, h2⟩ | ⟨h1, h2, h3⟩
    · exact h2
    · omega

/-- A tail starting with the terminator continues the shape. -/
theorem goodExprTail_end (t : Token) (rest : List Token) (h : t.kind = TokKind.END) :
    goodExprTail (t :: rest) = true := by
  cases rest <;> simp [goodExprTail, h]

/-- A tail starting with neither terminator nor plus breaks the shape. -/
theorem goodExprTail_not (t : Token) (rest : List Token)
    (h1 : ¬ t.kind = TokKind.END) (h2 : ¬ t.kind = TokKind.PLUS) :
    goodExprTail (t :: rest) = false := by
  cases rest <;> simp [goodExprTail, h1, h2]

/-- A lone non-terminator token breaks the shape. -/
theorem goodExprTail_one (t : Token) (h1 : ¬ t.kind = TokKind.END) :
    goodExprTail [t] = false := by
  simp [goodExprTail, h1]

/-- A plus continues the shape exactly on a value followed by a good tail. -/
theorem goodExprTail_plus (t t1 : Token) (rest1 : List Token)
    (h1 : ¬ t.kind = TokKind.END) (h2 : t.kind = TokKind.PLUS) :
    goodExprTail (t :: t1 :: rest1) = (isvalueK t1.kind && goodExprTail rest1) := by
  simp [goodExprTail, h1, h2]

/-- The shape of a whole expression: a value then a good tail. -/
theorem goodExpr_cons (t : Token) (rest : List Token) :
    goodExpr (t :: rest) = (isvalueK t.kind && goodExprTail rest) := by
  simp [goodExpr]

/-- At a well-formed cursor the unconsumed tokens start with the current one. -/
theorem rem_cons (s : PState) (t : Token) (hinv : pinv s) (hc : s.curr = some t) :
    rem s = t :: s.tokens.drop s.idx := by
  unfold rem
  rw [hc]
  rcases hinv with ⟨h1, -⟩ | ⟨h1, h2, h3⟩
  · rw [hc] at h1
    exact absurd h1 (by simp)
  · rw [hc] at h3
    have hlt : s.idx - 1 < s.tokens.length := by
      by_contra hge
      rw [List.get?_eq_none.mpr (by omega)] at h3
      exact absurd h3 (by simp)
    have hget : s.tokens.get ⟨s.idx - 1, hlt⟩ = t := by
      have hg := List.get?_eq_get hlt (l := s.tokens)
      rw [← h3] at hg
      exact (Option.some_injective _ hg).symm
    rw [List.drop_eq_get_cons hlt, hget]
    have hidx : s.idx - 1 + 1 = s.idx := by omega
    rw [hidx]

/-- After an advance from a well-formed cursor holding a token, the
unconsumed tokens are the drop at the old index. -/
theorem rem_next (s : PState) (t : Token) (hinv : pinv s) (hc : s.curr = some t) :
    rem (next_token s) = s.tokens.drop s.idx := by
  unfold rem next_token
  by_cases hlt : s.idx < s.tokens.length
  · rw [if_pos hlt]
    simp only
    rw [List.get?_eq_get hlt]
    have hidx : s.idx + 1 - 1 = s.idx := by omega
    simp [hidx]
  · rw [if_neg hlt]
    simp only
    rw [List.drop_eq_nil_of_le (by omega)]

/-- The expression while loop, entered with the value count one above the
plus count as the method maintains, accepts exactly when the unconsumed
tokens continue the expression shape of the specification. -/
theorem exprLoop_good :
    ∀ (fuel : Nat) (s : PState) (pc : Nat),
      pinv s → s.tokens.length + 1 - s.idx ≤ fuel →
      ((∃ s2, exprLoop s (pc + 1) pc fuel = some (true, s2))
        ↔ goodExprTail (rem s) = true) := by
  intro fuel
  induction fuel with
  | zero =>
    intro s pc hinv hfuel
    rcases hinv with ⟨-, h2⟩ | ⟨-, h2, -⟩ <;> omega
  | succ f ih =>
    intro s pc hinv hfuel
    cases hc : s.curr with
    | none =>
      simp only [exprLoop, hc]
      constructor
      · rintro ⟨s2, hs2⟩
        exact absurd hs2 (by simp)
      · intro hg
        unfold rem at hg
        rw [hc] at hg
        simp [goodExprTail] at hg
    | some t =>
      have hrem := rem_cons s t hinv hc
      simp only [exprLoop, hc]
      by_cases hEnd : t.kind = .END
      · rw [if_pos ⟨hEnd, by omega⟩]
        constructor
        · intro _
          rw [hrem]
          exact goodExprTail_end t _ hEnd
        · intro _
          exact ⟨s, rfl⟩
      · have hcond : ¬ (t.kind = .END ∧ (pc + 1) - pc = 1) := fun hh => hEnd hh.1
        rw [if_neg hcond]
        by_cases hPlus : t.kind = .PLUS
        · rw [if_pos hPlus]
          have hremeq := rem_next s t hinv hc
          cases hc1 : (next_token s).curr with
          | none =>
            have hnil : s.tokens.drop s.idx = [] := by
              rw [← hremeq]
              unfold rem
              rw [hc1]
            constructor
            · rintro ⟨s2, hs2⟩
              exact absurd hs2 (by simp)
            · intro hg
              rw [hrem, hnil, goodExprTail_one t hEnd] at hg
              exact absurd hg (by simp)
          | some t1 =>
            have hinv1 : pinv (next_token s) := pinv_next s hinv
            have hidx1 := next_token_some_idx s t1 hc1
            have hrem1 := rem_cons (next_token s) t1 hinv1 hc1
            have hremeq1 := rem_next (next_token s) t1 hinv1 hc1
            rw [next_token_tokens s] at hrem1 hremeq1
            have hshape : rem s = t :: t1 :: s.tokens.drop (next_token s).idx := by
              rw [hrem, ← hremeq, hrem1]
            by_cases hval : isvalueK t1.kind
            · simp only [hval, eq_self_iff_true, if_true]
              have hinv2 : pinv (next_token (next_token s)) := pinv_next _ hinv1
              have hfuel2 : (next_token (next_token s)).tokens.length + 1
                  - (next_token (next_token s)).idx ≤ f := by
                have ht1 := next_token_tokens s
                have ht2 := next_token_tokens (next_token s)
                have hge := next_token_idx_ge (next_token s)
                rw [ht2, ht1]
                omega
              rw [ih (next_token (next_token s)) (pc + 1) hinv2 hfuel2]
              rw [hremeq1, hshape, goodExprTail_plus t t1 _ hEnd hPlus]
              simp [hval]
            · simp only [Bool.not_eq_true] at hval
              simp only [hval]
              constructor
              · rintro ⟨s2, hs2⟩
                rw [if_neg (by simp)] at hs2
                exact absurd hs2 (by simp)
              · intro hg
                rw [hshape, goodExprTail_plus t t1 _ hEnd hPlus, hval] at hg
                exact absurd hg (by simp)
        · rw [if_neg hPlus]
          constructor
          · rintro ⟨s2, hs2⟩
            exact absurd hs2 (by simp)
          · intro hg
            rw [hrem, goodExprTail_not t _ hEnd hPlus] at hg
            exact absurd hg (by simp)

/-- A value token is not the terminator. -/
theorem isvalueK_not_end {k : TokKind} (h : isvalueK k = true) : ¬ k = TokKind.END := by
  cases k <;> simp_all [isvalueK]

/-- A value token is not a plus. -/
theorem isvalueK_not_plus {k : TokKind} (h : isvalueK k = true) : ¬ k = TokKind.PLUS := by
  cases k <;> simp_all [isvalueK]

/-- Within the tokens before the terminator, a shape-correct expression tail
holds as many values as pluses. -/
theorem goodExprTail_counts :
    ∀ (n : Nat) (l : List Token), l.length ≤ n → goodExprTail l = true →
      ((l.takeWhile (fun tk => !(tk.kind == TokKind.END))).countP
          (fun tk => isvalueK tk.kind))
        = ((l.takeWhile (fun tk => !(tk.kind == TokKind.END))).countP
            (fun tk => tk.kind == TokKind.PLUS)) := by
  intro n
  induction n with
  | zero =>
    intro l hl hg
    have hnil : l = [] := List.length_eq_zero.mp (by omega)
    subst hnil
    simp [goodExprTail] at hg
  | succ m ih =>
    intro l hl hg
    cases l with
    | nil => simp [goodExprTail] at hg
    | cons t rest =>
      by_cases hEnd : t.kind = TokKind.END
      · simp [List.takeWhile_cons, hEnd]
      · by_cases hPlus : t.kind = TokKind.PLUS
        · cases rest with
          | nil =>
            rw [goodExprTail_one t hEnd] at hg
            exact absurd hg (by simp)
          | cons t1 rest1 =>
            rw [goodExprTail_plus t t1 rest1 hEnd hPlus, Bool.and_eq_true] at hg
            obtain ⟨hv, hg1⟩ := hg
            have ht1e : ¬ t1.kind = TokKind.END := isvalueK_not_end hv
            have ht1p : ¬ t1.kind = TokKind.PLUS := isvalueK_not_plus hv
            have hcount := ih rest1 (by simp only [List.length_cons] at hl; omega) hg1
            have hEndB : (t.kind == TokKind.END) = false := by
              simp [hEnd]
            have ht1eB : (t1.kind == TokKind.END) = false := by
              simp [ht1e]
            have ht1pB : (t1.kind == TokKind.PLUS) = false := by
              simp [ht1p]
            have hPlusB : (t.kind == TokKind.PLUS) = true := by
              simp [hPlus]
            have hvF : isvalueK t.kind = false := by
              rw [hPlus]
              decide
            simp [List.takeWhile_cons, List.countP_cons, hEndB, ht1eB, ht1pB, hPlusB,
              hv, hvF, hcount]
        · rw [goodExprTail_not t rest hEnd hPlus] at hg
          exact absurd hg (by simp)

/-- C8.  At any well-formed cursor holding a current token, the expression
method accepts exactly when the unconsumed tokens have the shape
Term (PLUS Term)* followed by the END terminator (the goodExpr predicate);
and every shape-correct expression has its value count above its plus count
by exactly one — the count the loop checks at the terminator.  Every
deviation (leading plus, doubled plus, adjacent terms, trailing plus, zero
terms) is therefore rejected. -/
theorem c8_expression_shape :
    (∀ (s : PState) (t : Token), pinv s → s.curr = some t →
      ((∃ s2, expression s = some (true, s2)) ↔ goodExpr (rem s) = true))
    ∧ (∀ l : List Token, goodExpr l = true →
        ((l.takeWhile (fun tk => !(tk.kind == TokKind.END))).countP
            (fun tk => isvalueK tk.kind))
          = ((l.takeWhile (fun tk => !(tk.kind == TokKind.END))).countP
              (fun tk => tk.kind == TokKind.PLUS)) + 1) := by
  constructor
  · intro s t hinv hc
    have hrem := rem_cons s t hinv hc
    unfold expression
    rw [hc]
    by_cases hval : isvalueK t.kind
    · simp only [hval, eq_self_iff_true, if_true]
      have hinv1 := pinv_next s hinv
      have hremeq := rem_next s t hinv hc
      have hfuel1 : (next_token s).tokens.length + 1 - (next_token s).idx
          ≤ s.tokens.length + 1 := by
        rw [next_token_tokens s]
        omega
      have h := exprLoop_good (s.tokens.length + 1) (next_token s) 0 hinv1 hfuel1
      simp only [Nat.zero_add] at h
      rw [h, hremeq, hrem, goodExpr_cons]
      simp [hval]
    · simp only [Bool.not_eq_true] at hval
      simp only [hval]
      constructor
      · rintro ⟨s2, hs2⟩
        rw [if_neg (by simp)] at hs2
        exact absurd hs2 (by simp)
      · intro hg
        rw [hrem, goodExpr_cons, hval] at hg
        exact absurd hg (by simp)
  · intro l hg
    cases l with
    | nil => simp [goodExpr] at hg
    | cons t rest =>
      rw [goodExpr_cons, Bool.and_eq_true] at hg
      obtain ⟨hv, hg1⟩ := hg
      have hte : ¬ t.kind = TokKind.END := isvalueK_not_end hv
      have htp : ¬ t.kind = TokKind.PLUS := isvalueK_not_plus hv
      have hcount := goodExprTail_counts rest.length rest (Nat.le_refl _) hg1
      simp [List.takeWhile_cons, List.countP_cons, hte, htp, hv, hcount]

/-- C8 witness: the acceptance characterisation applied to the cursor of the
statement print a; positioned on the identifier term. -/
theorem c8_witness :
    ((∃ s2, expression (PState.mk [Token.mk .PRINT (chars "print"),
        Token.mk .ID (chars "a"), Token.mk .END (chars ";")]
        (some (Token.mk .ID (chars "a"))) 2) = some (true, s2))
      ↔ goodExpr (rem (PState.mk [Token.mk .PRINT (chars "print"),
          Token.mk .ID (chars "a"), Token.mk .END (chars ";")]
          (some (Token.mk .ID (chars "a"))) 2)) = true) :=
  c8_expression_shape.1 _ (Token.mk .ID (chars "a"))
    (Or.inr ⟨by decide, by decide, rfl⟩) rfl

/-- A name is absent from the lookup exactly when it is not among the keys. -/
theorem get_none_iff (table : Table) (x : List Char) :
    get_table_record table x = none ↔ ¬ x ∈ keys table := by
  induction table with
  | nil => simp [get_table_record, keys]
  | cons a rest ih =>
    unfold get_table_record
    by_cases ha : a.1 = x
    · rw [if_pos ha]
      have hx : x ∈ keys (a :: rest) := by
        unfold keys
        rw [List.map_cons, ha]
        exact List.mem_cons_self x _
      simp [hx]
    · rw [if_neg ha]
      have ha2 : ¬ x = a.1 := fun he => ha he.symm
      unfold keys at ih ⊢
      rw [List.map_cons]
      simp [List.mem_cons, ha2, ih]

/-- Replacing the record found by name with one of the same name keeps the
key list — the overwrite happens in place. -/
theorem keys_replaceRecord (table : Table) (x : List Char) (r new : List Char × List Char)
    (h : get_table_record table x = some r) (hn : new.1 = x) :
    keys (replaceRecord table r new) = keys table := by
  induction table with
  | nil => simp [get_table_record] at h
  | cons a rest ih =>
    unfold get_table_record at h
    by_cases ha : a.1 = x
    · rw [if_pos ha] at h
      injection h with h
      subst h
      unfold replaceRecord
      rw [if_pos rfl]
      unfold keys
      rw [List.map_cons, List.map_cons, hn, ha]
    · rw [if_neg ha] at h
      have hr1 : r.1 = x := get_table_record_name rest x r h
      have har : a ≠ r := fun he => ha (by rw [he, hr1])
      unfold replaceRecord
      rw [if_neg har]
      unfold keys at ih ⊢
      rw [List.map_cons, List.map_cons, ih h]

/-- A successful do_append keeps the key list. -/
theorem do_append_keys (tokens : List Token) (table : Table) (start stop : Nat)
    (t2 : Table) (msgs : List Msg)
    (h : do_append tokens table start stop = some (t2, msgs)) :
    keys t2 = keys table := by
  unfold do_append at h
  cases h1 : tokens.get? 1 with
  | none =>
    rw [h1] at h
    simp at h
  | some idTok =>
    rw [h1] at h
    cases h2 : eval_expression tokens table start stop with
    | none =>
      rw [h2] at h
      simp at h
    | some p =>
      rw [h2] at h
      obtain ⟨evaluated, msgs2⟩ := p
      cases h3 : get_table_record table idTok.text with
      | some r =>
        simp only [h3] at h
        cases evaluated with
        | some v =>
          simp at h
          obtain ⟨h4, -⟩ := h
          rw [← h4]
          exact keys_replaceRecord table idTok.text r _ h3 rfl
        | none =>
          simp at h
          obtain ⟨h4, -⟩ := h
          rw [← h4]
      | none =>
        simp only [h3] at h
        simp at h
        obtain ⟨h4, -⟩ := h
        rw [← h4]

/-- A successful do_set keeps the key list or appends the one new name, a
name absent from the table. -/
theorem do_set_keys (tokens : List Token) (table : Table) (start stop : Nat)
    (t2 : Table) (msgs : List Msg)
    (h : do_set tokens table start stop = some (t2, msgs)) :
    keys t2 = keys table
    ∨ ∃ name v, get_table_record table name = none ∧ t2 = table ++ [(name, v)] := by
  unfold do_set at h
  cases h1 : tokens.get? 1 with
  | none =>
    rw [h1] at h
    simp at h
  | some idTok =>
    rw [h1] at h
    cases h2 : eval_expression tokens table start stop with
    | none =>
      rw [h2] at h
      simp at h
    | some p =>
      rw [h2] at h
      obtain ⟨evaluated, msgs2⟩ := p
      cases evaluated with
      | some v =>
        cases h3 : get_table_record table idTok.text with
        | some r =>
          simp only [h3] at h
          simp at h
          obtain ⟨h4, -⟩ := h
          left
          rw [← h4]
          exact keys_replaceRecord table idTok.text r _ h3 rfl
        | none =>
          simp only [h3] at h
          simp at h
          obtain ⟨h4, -⟩ := h
          right
          exact ⟨idTok.text, v, h3, h4.symm⟩
      | none =>
        simp at h
        obtain ⟨h4, -⟩ := h
        left
        rw [← h4]

/-- A successful reverse keeps the key list. -/
theorem reverseVar_keys (tokens : List Token) (table : Table)
    (t2 : Table) (msgs : List Msg)
    (h : reverseVar tokens table = some (t2, msgs)) :
    keys t2 = keys table := by
  unfold reverseVar at h
  cases h1 : tokens.get? 1 with
  | none =>
    rw [h1] at h
    simp at h
  | some idTok =>
    rw [h1] at h
    cases h3 : get_table_record table idTok.text with
    | some r =>
      simp only [h3] at h
      simp at h
      obtain ⟨h4, -⟩ := h
      rw [← h4]
      exact keys_replaceRecord table idTok.text r _ h3 rfl
    | none =>
      simp only [h3] at h
      simp at h
      obtain ⟨h4, -⟩ := h
      rw [← h4]

/-- Running one statement keeps the key list or appends one fresh name: the
only table writers are do_set (replace or append), do_append (replace) and
reverse (replace). -/
theorem statement_keys (toks : List Token) (t : Table) :
    keys (outTable (statement toks t)) = keys t
    ∨ ∃ name v, get_table_record t name = none
        ∧ outTable (statement toks t) = t ++ [(name, v)] := by
  unfold statement
  cases hcur : (next_token { tokens := toks, curr := none, idx := 0 : PState }).curr with
  | none =>
    simp only [hcur, outTable]
    left
    trivial
  | some t0 =>
    simp only [hcur]
    by_cases hAS : t0.kind = TokKind.APPEND ∨ t0.kind = TokKind.SET
    · rw [if_pos hAS]
      cases hvm : valid_match
          (next_token (next_token { tokens := toks, curr := none, idx := 0 : PState }))
          TokKind.ID with
      | none =>
        simp only [hvm, outTable]
        left
        trivial
      | some p =>
        obtain ⟨s3, m1⟩ := p
        simp only [hvm]
        cases hex : expression s3 with
        | none =>
          simp only [hex, outTable]
          left
          trivial
        | some q =>
          obtain ⟨ok, s4⟩ := q
          simp only [hex]
          by_cases hok : ok = false
          · rw [if_pos hok]
            simp only [outTable]
            left
            trivial
          · rw [if_neg hok]
            cases hvm2 : valid_match s4 TokKind.END with
            | none =>
              simp only [hvm2, outTable]
              left
              trivial
            | some p2 =>
              obtain ⟨s5, m2⟩ := p2
              simp only [hvm2]
              by_cases hA : t0.kind = TokKind.APPEND
              · rw [if_pos hA]
                cases hda : do_append toks t (s3.idx - 1) (s4.idx - 1) with
                | none =>
                  simp only [hda, outTable]
                  left
                  trivial
                | some pr =>
                  obtain ⟨t2, m3⟩ := pr
                  simp only [hda, outTable]
                  left
                  exact do_append_keys _ _ _ _ _ _ hda
              · rw [if_neg hA]
                cases hds : do_set toks t (s3.idx - 1) (s4.idx - 1) with
                | none =>
                  simp only [hds, outTable]
                  left
                  trivial
                | some pr =>
                  obtain ⟨t2, m3⟩ := pr
                  simp only [hds, outTable]
                  rcases do_set_keys _ _ _ _ _ _ hds with hk | ⟨n, v, h1, h2⟩
                  · exact Or.inl hk
                  · exact Or.inr ⟨n, v, h1, h2⟩
    · rw [if_neg hAS]
      by_cases hL : t0.kind = TokKind.LIST
      · rw [if_pos hL]
        cases hvm : valid_match
            (next_token (next_token { tokens := toks, curr := none, idx := 0 : PState }))
            TokKind.END with
        | none =>
          simp only [hvm, outTable]
          left
          trivial
        | some p =>
          obtain ⟨s2, m⟩ := p
          simp only [hvm, outTable]
          left
          trivial
      · rw [if_neg hL]
        by_cases hE : t0.kind = TokKind.EXIT
        · rw [if_pos hE]
          cases hvm : valid_match
              (next_token (next_token { tokens := toks, curr := none, idx := 0 : PState }))
              TokKind.END with
          | none =>
            simp only [hvm, outTable]
            left
            trivial
          | some p =>
            obtain ⟨s2, m⟩ := p
            simp only [hvm, outTable]
            left
            trivial
        · rw [if_neg hE]
          by_cases hR : t0.kind = TokKind.REVERSE
          · rw [if_pos hR]
            cases hvm : valid_match
                (next_token (next_token { tokens := toks, curr := none, idx := 0 : PState }))
                TokKind.ID with
            | none =>
              simp only [hvm, outTable]
              left
              trivial
            | some p =>
              obtain ⟨s3, m1⟩ := p
              simp only [hvm]
              cases hvm2 : valid_match s3 TokKind.END with
              | none =>
                simp only [hvm2, outTable]
                left
                trivial
              | some p2 =>
                obtain ⟨s4, m2⟩ := p2
                simp only [hvm2]
                cases hrv : reverseVar toks t with
                | none =>
                  simp only [hrv, outTable]
                  left
                  trivial
                | some pr =>
                  obtain ⟨t2, m3⟩ := pr
                  simp only [hrv, outTable]
                  left
                  exact reverseVar_keys _ _ _ _ hrv
          · rw [if_neg hR]
            by_cases hP : printKind t0.kind = true
            · rw [if_pos hP]
              cases hex : expression
                  (next_token (next_token { tokens := toks, curr := none, idx := 0 : PState })) with
              | none =>
                simp only [hex, outTable]
                left
                trivial
              | some q =>
                obtain ⟨ok, s3⟩ := q
                simp only [hex]
                by_cases hok : ok = false
                · rw [if_pos hok]
                  simp only [outTable]
                  left
                  trivial
                · rw [if_neg hok]
                  cases hvm2 : valid_match s3 TokKind.END with
                  | none =>
                    simp only [hvm2, outTable]
                    left
                    trivial
                  | some p2 =>
                    obtain ⟨s4, m2⟩ := p2
                    simp only [hvm2]
                    cases hpr : expr_print toks t
                        ((next_token (next_token
                          { tokens := toks, curr := none, idx := 0 : PState })).idx - 1)
                        (s3.idx - 1) with
                    | none =>
                      simp only [hpr, outTable]
                      left
                      trivial
                    | some m3 =>
                      simp only [hpr, outTable]
                      left
                      trivial
            · rw [if_neg hP]
              simp only [outTable]
              left
              trivial

/-- C10.  At every reachable point of a session the symbol table holds at
most one record per name (the key list has no duplicate); every statement
either keeps the key list unchanged (overwrites replace the value in place,
nothing is ever deleted) or appends exactly one name that was absent — the
position where a name was first set; and the List output enumerates the
records in exactly the table order, one line per record after the header. -/
theorem c10_table_invariant :
    (∀ t, ReachableTable t → (keys t).Nodup)
    ∧ (∀ (t : Table) (toks : List Token),
        keys (outTable (statement toks t)) = keys t
        ∨ ∃ name v, get_table_record t name = none
            ∧ outTable (statement toks t) = t ++ [(name, v)])
    ∧ (∀ t : Table, list_vars t
        = (chars "Identifier List (" ++ natChars t.length ++ chars "):")
          :: t.map (fun r => r.1 ++ chars " : " ++ r.2)) := by
  refine ⟨?_, fun t toks => statement_keys toks t, fun t => rfl⟩
  intro t ht
  induction ht with
  | init => simp [keys]
  | step t toks hre ih =>
    rcases statement_keys toks t with hk | ⟨n, v, h1, h2⟩
    · rw [hk]
      exact ih
    · rw [h2]
      unfold keys at ih ⊢
      rw [List.map_append]
      rw [List.nodup_append]
      refine ⟨ih, List.nodup_singleton _, ?_⟩
      intro a ha hb
      rw [List.map_singleton, List.mem_singleton] at hb
      subst hb
      exact (get_none_iff t _).mp h1 ha

/-- C10 witness: the no-duplicate invariant applied to the table reached from
the empty table by the single statement set a "x"; . -/
theorem c10_witness :
    (keys (outTable (statement [Token.mk .SET (chars "set"), Token.mk .ID (chars "a"),
        Token.mk .LITERAL (chars "x"), Token.mk .END (chars ";")] []))).Nodup :=
  c10_table_invariant.1 _ (ReachableTable.step [] _ ReachableTable.init)

end SPI
